import Mathlib

/-!
Verification development for the Bloom-filter de Bruijn graph adapter
(`BloomDBG/RollingBloomDBG.h`) and its unit test
(`Unittest/BloomDBG/RollingBloomDBGTest.cpp`).

The adapter's own logic (vertex type, equality, the lazy adjacency /
out-edge / in-edge iterators, degree, null vertex, property accessors) is
embedded from the source.  The external collaborators that are not part of
the source tree (`RollingHash.h`, `LightweightKmer.h`, `MaskedKmer.h`, the
Bloom filter) are modelled from the specification at the level of their
documented contracts.
-/

set_option autoImplicit false

namespace RollingBloomDBG

/-- Traversal direction (`extDirection` in the source): `SENSE` walks the
sequence forward, `ANTISENSE` backward. -/
inductive extDirection where
  | SENSE
  | ANTISENSE
deriving DecidableEq, Repr

open extDirection

/-- Session configuration (spec section 6): the k-mer length `k`, the
optional spaced-seed mask (`true` = significant position, `false` =
don't-care; the empty list means "no mask"), and the number of hash values
`numHashes`.  In the source these are process-wide values set once via
`MaskedKmer::setLength` / `MaskedKmer::setMask` and the `RollingHash`
constructor arguments. -/
structure Session where
  k : Nat
  mask : List Bool
  numHashes : Nat
deriving DecidableEq, Repr

/-- Alphabet order used by the neighbor enumeration (`BASE_CHARS` in the
source): the fixed canonical order A, C, G, T. -/
def BASE_CHARS : List Char := ['A', 'C', 'G', 'T']

/-- Numeric code of an alphabet symbol, used by the modelled hash mixer. -/
def baseCode (c : Char) : Nat :=
  if c = 'A' then 0
  else if c = 'C' then 1
  else if c = 'G' then 2
  else if c = 'T' then 3
  else 4

/-- Replace the don't-care positions of a window with a fixed placeholder,
so that hashing only depends on the unmasked positions (spec section 3:
hash values are produced "over the unmasked positions of the current
window contents").  An empty mask leaves the window unchanged. -/
def applyMask (mask : List Bool) (km : List Char) : List Char :=
  km.mapIdx (fun i c => if mask.getD i true then c else 'X')

/-- Modelled from the spec: the internal mixing algorithm of the seeded
multi-hash function is an external collaborator (`RollingHash.h` is not
under `src/`, and spec section 1 puts "the incremental multi-hash
function's internal mixing/seed algorithm" out of scope).  We instantiate
one concrete deterministic seeded hash over the unmasked window contents. -/
def hashValue (seed : Nat) (km : List Char) : Nat :=
  km.foldl (fun a c => a * 5 + baseCode c) (seed + 1)

/-- Incremental multi-hash state (`RollingHash` in the source): the ordered
collection of `numHashes` hash values for the current window contents. -/
structure RollingHash where
  hashes : List Nat
deriving DecidableEq, Repr

/-- Modelled from the spec: constructing a hash state from a full sequence
(spec section 4.2, "constructed from a full sequence once"); this is the
`RollingHash(kmer, numHashes, k)` constructor of the missing
`RollingHash.h`. -/
def RollingHash.ofKmer (s : Session) (km : List Char) : RollingHash :=
  ⟨(List.range s.numHashes).map (fun i => hashValue i (applyMask s.mask km))⟩

/-- Modelled from the spec: `RollingHash::rollRight(kmer, charIn)` of the
missing `RollingHash.h`.  Contract (spec section 4.2): given the current
window contents, update all hash values to reflect sliding the window one
symbol to the right (drop the first symbol, append `charIn`). -/
def RollingHash.rollRight (s : Session) (_st : RollingHash) (km : List Char)
    (charIn : Char) : RollingHash :=
  RollingHash.ofKmer s (km.tail ++ [charIn])

/-- Modelled from the spec: `RollingHash::rollLeft(charIn, kmer)` of the
missing `RollingHash.h`.  Contract (spec section 4.2): update all hash
values to reflect sliding the window one symbol to the left (drop the last
symbol, prepend `charIn`). -/
def RollingHash.rollLeft (s : Session) (_st : RollingHash) (charIn : Char)
    (km : List Char) : RollingHash :=
  RollingHash.ofKmer s (charIn :: km.dropLast)

/-- Modelled from the spec: `RollingHash::setBase(kmer, pos, base)` of the
missing `RollingHash.h`.  Contract (spec section 4.2): overwrite exactly
one position of the window (the real implementation writes the new base
through the `char*` it receives) and update all hash values to reflect the
single-symbol substitution.  Returns the mutated window together with the
updated hash state. -/
def RollingHash.setBase (s : Session) (_st : RollingHash) (km : List Char)
    (pos : Nat) (base : Char) : List Char × RollingHash :=
  (km.set pos base, RollingHash.ofKmer s (km.set pos base))

/-- Modelled from the spec: `LightweightKmer::shift(dir, charIn)` of the
missing `LightweightKmer.h` (spec section 4.1): drop the boundary symbol on
the trailing side and append the placeholder on the leading side. -/
def kmerShift : extDirection → Char → List Char → List Char
  | SENSE, c, km => km.tail ++ [c]
  | ANTISENSE, c, km => c :: km.dropLast

/-- Modelled from the spec: masked sequence comparison of the missing
`LightweightKmer.h` / `MaskedKmer.h` (spec section 4.1): with no mask the
sequences must be identical; under a spaced-seed mask they must agree at
every significant position (`true` bit). -/
def maskedEq (mask : List Bool) (xs ys : List Char) : Bool :=
  if mask.isEmpty then xs == ys
  else xs.length == ys.length &&
    (List.range xs.length).all
      (fun i => !(mask.getD i true) || (xs.getD i 'A' == ys.getD i 'A'))

/-- Vertex of the de Bruijn graph (`RollingBloomDBGVertex` in the source):
a k-mer paired with its incremental multi-hash state. -/
structure Vertex where
  kmer : List Char
  rollingHash : RollingHash
deriving DecidableEq, Repr

/-- From the source (`RollingBloomDBGVertex::clone`): rebuild a vertex from
its k-mer characters and a copy of its hash state. -/
def Vertex.clone (u : Vertex) : Vertex :=
  ⟨u.kmer, u.rollingHash⟩

/-- From the source (`RollingBloomDBGVertex::shift`, lines 54-62): roll the
hash state in the given direction using the pre-shift window contents, then
shift the k-mer itself. -/
def Vertex.shift (s : Session) (dir : extDirection) (charIn : Char)
    (u : Vertex) : Vertex :=
  match dir with
  | SENSE => ⟨kmerShift SENSE charIn u.kmer,
      RollingHash.rollRight s u.rollingHash u.kmer charIn⟩
  | ANTISENSE => ⟨kmerShift ANTISENSE charIn u.kmer,
      RollingHash.rollLeft s u.rollingHash charIn u.kmer⟩

/-- From the source (`RollingBloomDBGVertex::setLastBase`, lines 64-72):
substitute the base at position `k-1` (for `SENSE`) or `0` (for
`ANTISENSE`); the substitution mutates the k-mer through the pointer handed
to `RollingHash::setBase` and incrementally updates the hash state. -/
def Vertex.setLastBase (s : Session) (dir : extDirection) (base : Char)
    (u : Vertex) : Vertex :=
  let pos := match dir with
    | SENSE => s.k - 1
    | ANTISENSE => 0
  let r := RollingHash.setBase s u.rollingHash u.kmer pos base
  ⟨r.1, r.2⟩

/-- From the source (`RollingBloomDBGVertex::operator==`, lines 77-84):
compare the hash states first and answer `false` on a mismatch without
looking at the sequences; only when the hash states agree compare the
k-mers under the session mask. -/
def vertexEq (s : Session) (u v : Vertex) : Bool :=
  if u.rollingHash ≠ v.rollingHash then false
  else maskedEq s.mask u.kmer v.kmer

/-- The graph adapter (`RollingBloomDBG<BF>` in the source) reduced to what
the adapter uses of its Bloom filter: the membership query
`contains(hashes)`.  Keeping the oracle as an arbitrary boolean predicate
covers Bloom filters with false positives. -/
structure Graph where
  contains : List Nat → Bool

/-- From the source (`vertex_exists`, lines 371-379): query the membership
oracle with the vertex's current hash values. -/
def vertex_exists (u : Vertex) (g : Graph) : Bool :=
  g.contains u.rollingHash.hashes

/-- From the source (`graph_traits<...>::null_vertex()`, lines 152-155):
the sentinel pairs a default (empty) masked k-mer with an empty hash-value
collection.  (The source still spells the vertex as
`std::make_pair(MaskedKmer(), std::vector<size_t>())`, a leftover of the
earlier pair representation of `vertex_descriptor`.) -/
def null_vertex : Vertex :=
  ⟨[], ⟨[]⟩⟩

/-- Trace of the `adjacency_iterator` loop (source lines 173-235): starting
from working vertex `m_v` and the remaining alphabet suffix, each step
substitutes the next base at the last (SENSE) position and yields the
mutated clone when the oracle reports it present.  The list of remaining
characters stands for the indices `m_i, m_i+1, ..., NUM_BASES-1` of the
`next()` loop. -/
def adjRunAux (s : Session) (g : Graph) : List Char → Vertex → List Vertex
  | [], _ => []
  | c :: rest, v =>
    let w := Vertex.setLastBase s SENSE c v
    if vertex_exists w g then w :: adjRunAux s g rest w
    else adjRunAux s g rest w

/-- Trace of the `out_edge_iterator` loop (source lines 238-299): identical
search to `adjRunAux`, but each surviving candidate is dereferenced as the
edge `(m_u, m_v)` with the origin vertex as source. -/
def outRunAux (s : Session) (g : Graph) (u : Vertex) :
    List Char → Vertex → List (Vertex × Vertex)
  | [], _ => []
  | c :: rest, v =>
    let w := Vertex.setLastBase s SENSE c v
    if vertex_exists w g then (u, w) :: outRunAux s g u rest w
    else outRunAux s g u rest w

/-- Trace of the `in_edge_iterator` loop (source lines 302-363): the
candidate search substitutes at the ANTISENSE (leading) position and each
surviving candidate is dereferenced as the edge `(m_v, m_u)` with the
origin vertex as target. -/
def inRunAux (s : Session) (g : Graph) (u : Vertex) :
    List Char → Vertex → List (Vertex × Vertex)
  | [], _ => []
  | c :: rest, v =>
    let w := Vertex.setLastBase s ANTISENSE c v
    if vertex_exists w g then (w, u) :: inRunAux s g u rest w
    else inRunAux s g u rest w

/-- From the source (`adjacent_vertices`, lines 381-390, and the
`adjacency_iterator(g, u)` constructor): clone `u`, shift the clone once in
the SENSE direction (placeholder `'A'`), then run the 4-symbol search. -/
def adjacent_vertices (s : Session) (g : Graph) (u : Vertex) : List Vertex :=
  adjRunAux s g BASE_CHARS (Vertex.shift s SENSE 'A' u.clone)

/-- From the source (`out_edges`, lines 405-415, and the
`out_edge_iterator(g, u)` constructor). -/
def out_edges (s : Session) (g : Graph) (u : Vertex) :
    List (Vertex × Vertex) :=
  outRunAux s g u BASE_CHARS (Vertex.shift s SENSE 'A' u.clone)

/-- From the source (`in_edges`, lines 418-428, and the
`in_edge_iterator(g, u)` constructor): the clone is shifted once in the
ANTISENSE direction before the search. -/
def in_edges (s : Session) (g : Graph) (u : Vertex) :
    List (Vertex × Vertex) :=
  inRunAux s g u BASE_CHARS (Vertex.shift s ANTISENSE 'A' u.clone)

/-- From the source (`out_degree`, lines 393-403): the distance from the
begin adjacency iterator to the end iterator, i.e. the number of vertices
the adjacency enumeration yields. -/
def out_degree (s : Session) (g : Graph) (u : Vertex) : Nat :=
  (adjacent_vertices s g u).length

/-- From the source (`in_degree`, lines 430-440): the distance from the
begin in-edge iterator to the end iterator. -/
def in_degree (s : Session) (g : Graph) (u : Vertex) : Nat :=
  (in_edges s g u).length

/-- Alphabet complement (spec section 4.1 and glossary): A and T swap, C
and G swap. -/
def complementBase (c : Char) : Char :=
  if c = 'A' then 'T'
  else if c = 'T' then 'A'
  else if c = 'C' then 'G'
  else if c = 'G' then 'C'
  else c

/-- Modelled from the spec: `reverseComplement` of the missing
`MaskedKmer.h` (spec section 4.1): mirror the order and complement each
symbol. -/
def reverseComplement (km : List Char) : List Char :=
  (km.map complementBase).reverse

/-- From the source (`get(vertex_complement_t, ...)`, lines 444-453): the
returned vertex pairs the reverse-complemented k-mer with `u.second`, the
origin vertex's existing hash state, reused unchanged. -/
def getVertexComplement (u : Vertex) : Vertex :=
  ⟨reverseComplement u.kmer, u.rollingHash⟩

/-- State of an `adjacency_iterator` (source lines 173-235): the graph, the
origin vertex `m_u`, the working vertex `m_v` and the alphabet cursor
`m_i`. -/
structure AdjacencyIterator where
  g : Graph
  u : Vertex
  v : Vertex
  i : Nat

/-- From the source (`adjacency_iterator::operator==`, lines 205-208): two
iterators compare equal exactly when their alphabet cursors agree. -/
def adjIterEq (a b : AdjacencyIterator) : Bool :=
  a.i == b.i

/-- From the source (`adjacency_iterator(g)`, line 190): the end iterator
holds cursor `NUM_BASES = 4` and default-constructed vertices. -/
def adjIterEnd (g : Graph) : AdjacencyIterator :=
  ⟨g, null_vertex, null_vertex, 4⟩

/-- State of an `out_edge_iterator` (source lines 238-299). -/
structure OutEdgeIterator where
  g : Graph
  u : Vertex
  v : Vertex
  i : Nat

/-- From the source (`out_edge_iterator::operator==`, lines 269-272). -/
def outIterEq (a b : OutEdgeIterator) : Bool :=
  a.i == b.i

/-- From the source (`out_edge_iterator(g)`, line 254). -/
def outIterEnd (g : Graph) : OutEdgeIterator :=
  ⟨g, null_vertex, null_vertex, 4⟩

/-- State of an `in_edge_iterator` (source lines 302-363). -/
structure InEdgeIterator where
  g : Graph
  u : Vertex
  v : Vertex
  i : Nat

/-- From the source (`in_edge_iterator::operator==`, lines 333-336). -/
def inIterEq (a b : InEdgeIterator) : Bool :=
  a.i == b.i

/-- From the source (`in_edge_iterator(g)`, line 318). -/
def inIterEnd (g : Graph) : InEdgeIterator :=
  ⟨g, null_vertex, null_vertex, 4⟩

/-- Mutation operations available on a vertex (source lines 54-72). -/
inductive MutOp where
  | shiftOp (dir : extDirection) (charIn : Char)
  | setLastOp (dir : extDirection) (base : Char)
deriving DecidableEq, Repr

/-- Apply one mutation operation to a vertex. -/
def applyOp (s : Session) (u : Vertex) : MutOp → Vertex
  | MutOp.shiftOp dir c => Vertex.shift s dir c u
  | MutOp.setLastOp dir b => Vertex.setLastBase s dir b u

/-- Apply a sequence of mutation operations from left to right. -/
def applyOps (s : Session) (ops : List MutOp) (u : Vertex) : Vertex :=
  ops.foldl (applyOp s) u

/-- Consistency invariant between the two halves of a vertex (spec section
3): the incremental hash state equals the hash of the k-mer currently held
by the paired masked k-mer. -/
def consistent (s : Session) (u : Vertex) : Prop :=
  u.rollingHash = RollingHash.ofKmer s u.kmer

/-- A vertex is well formed for a session when its k-mer has the session
length, is drawn from the DNA alphabet, and its hash state matches its
k-mer. -/
def wellFormed (s : Session) (u : Vertex) : Prop :=
  u.kmer.length = s.k ∧ (∀ c ∈ u.kmer, c ∈ BASE_CHARS) ∧
    u.rollingHash = RollingHash.ofKmer s u.kmer

/-- Membership oracle with no false positives: answers `true` exactly on
the hash signatures of the inserted k-mers.  This realises the test
fixture's Bloom filter on the inputs it is queried at (the unit test is
engineered so that no false positive occurs). -/
def oracleGraph (s : Session) (ks : List (List Char)) : Graph :=
  ⟨fun hs => ks.any (fun km => (RollingHash.ofKmer s km).hashes == hs)⟩

/-- Build a vertex the way the unit test does:
`V("GACTC", RollingHash("GACTC", numHashes, k))`. -/
def mkVertex (s : Session) (km : List Char) : Vertex :=
  ⟨km, RollingHash.ofKmer s km⟩

/-- Session of the unit-test fixture: k = 5, no spaced-seed mask,
numHashes = 2. -/
def scen : Session :=
  ⟨5, [], 2⟩

def kCGACT : List Char := ['C', 'G', 'A', 'C', 'T']

def kTGACT : List Char := ['T', 'G', 'A', 'C', 'T']

def kGACTC : List Char := ['G', 'A', 'C', 'T', 'C']

def kACTCT : List Char := ['A', 'C', 'T', 'C', 'T']

def kACTCG : List Char := ['A', 'C', 'T', 'C', 'G']

/-- The five k-mers inserted by the test fixture. -/
def insertedKmers : List (List Char) :=
  [kCGACT, kTGACT, kGACTC, kACTCT, kACTCG]

/-- The test fixture's populated membership oracle. -/
def scenGraph : Graph :=
  oracleGraph scen insertedKmers

/-! Helper lemmas. -/

theorem setLastBase_sense (s : Session) (b : Char) (u : Vertex) :
    Vertex.setLastBase s SENSE b u =
      ⟨u.kmer.set (s.k - 1) b, RollingHash.ofKmer s (u.kmer.set (s.k - 1) b)⟩ :=
  rfl

theorem setLastBase_antisense (s : Session) (b : Char) (u : Vertex) :
    Vertex.setLastBase s ANTISENSE b u =
      ⟨u.kmer.set 0 b, RollingHash.ofKmer s (u.kmer.set 0 b)⟩ :=
  rfl

theorem shift_sense (s : Session) (c : Char) (u : Vertex) :
    Vertex.shift s SENSE c u =
      ⟨u.kmer.tail ++ [c], RollingHash.ofKmer s (u.kmer.tail ++ [c])⟩ :=
  rfl

theorem shift_antisense (s : Session) (c : Char) (u : Vertex) :
    Vertex.shift s ANTISENSE c u =
      ⟨c :: u.kmer.dropLast, RollingHash.ofKmer s (c :: u.kmer.dropLast)⟩ :=
  rfl

/-- Substituting twice at the same boundary position collapses to the last
substitution: the working vertex reused across loop iterations produces the
same candidate as a fresh substitution on the shifted clone. -/
theorem setLastBase_setLastBase (s : Session) (d : extDirection)
    (c c' : Char) (u : Vertex) :
    Vertex.setLastBase s d c' (Vertex.setLastBase s d c u) =
      Vertex.setLastBase s d c' u := by
  cases d <;>
    simp [setLastBase_sense, setLastBase_antisense, List.set_set]

theorem adjRunAux_eq (s : Session) (g : Graph) (cs : List Char) (v : Vertex) :
    adjRunAux s g cs v =
      (cs.map (fun c => Vertex.setLastBase s SENSE c v)).filter
        (fun w => vertex_exists w g) := by
  induction cs generalizing v with
  | nil => rfl
  | cons c rest ih =>
    simp only [adjRunAux, List.map_cons, List.filter_cons]
    cases h : vertex_exists (Vertex.setLastBase s SENSE c v) g <;>
      simp [h, ih, setLastBase_setLastBase]

theorem outRunAux_eq (s : Session) (g : Graph) (u : Vertex) (cs : List Char)
    (v : Vertex) :
    outRunAux s g u cs v =
      ((cs.map (fun c => Vertex.setLastBase s SENSE c v)).filter
        (fun w => vertex_exists w g)).map (fun w => (u, w)) := by
  induction cs generalizing v with
  | nil => rfl
  | cons c rest ih =>
    simp only [outRunAux, List.map_cons, List.filter_cons]
    cases h : vertex_exists (Vertex.setLastBase s SENSE c v) g <;>
      simp [h, ih, setLastBase_setLastBase]

theorem inRunAux_eq (s : Session) (g : Graph) (u : Vertex) (cs : List Char)
    (v : Vertex) :
    inRunAux s g u cs v =
      ((cs.map (fun c => Vertex.setLastBase s ANTISENSE c v)).filter
        (fun w => vertex_exists w g)).map (fun w => (w, u)) := by
  induction cs generalizing v with
  | nil => rfl
  | cons c rest ih =>
    simp only [inRunAux, List.map_cons, List.filter_cons]
    cases h : vertex_exists (Vertex.setLastBase s ANTISENSE c v) g <;>
      simp [h, ih, setLastBase_setLastBase]

theorem adjacent_vertices_eq (s : Session) (g : Graph) (u : Vertex) :
    adjacent_vertices s g u =
      (BASE_CHARS.map (fun c =>
        Vertex.setLastBase s SENSE c (Vertex.shift s SENSE 'A' u.clone))).filter
        (fun w => vertex_exists w g) :=
  adjRunAux_eq s g BASE_CHARS _

theorem out_edges_eq (s : Session) (g : Graph) (u : Vertex) :
    out_edges s g u =
      ((BASE_CHARS.map (fun c =>
        Vertex.setLastBase s SENSE c (Vertex.shift s SENSE 'A' u.clone))).filter
        (fun w => vertex_exists w g)).map (fun w => (u, w)) :=
  outRunAux_eq s g u BASE_CHARS _

theorem in_edges_eq (s : Session) (g : Graph) (u : Vertex) :
    in_edges s g u =
      ((BASE_CHARS.map (fun c =>
        Vertex.setLastBase s ANTISENSE c
          (Vertex.shift s ANTISENSE 'A' u.clone))).filter
        (fun w => vertex_exists w g)).map (fun w => (w, u)) :=
  inRunAux_eq s g u BASE_CHARS _

theorem length_filter_of_map {α β : Type} (f : α → β) (p : β → Bool)
    (l : List α) :
    ((l.map f).filter p).length = (l.filter (fun x => p (f x))).length := by
  induction l with
  | nil => rfl
  | cons a l ih =>
    simp only [List.map_cons, List.filter_cons]
    cases h : p (f a) <;> simp [h, ih]

theorem setLastBase_kmer_length (s : Session) (d : extDirection) (b : Char)
    (u : Vertex) :
    (Vertex.setLastBase s d b u).kmer.length = u.kmer.length := by
  cases d <;> simp [setLastBase_sense, setLastBase_antisense]

theorem shift_kmer_length (s : Session) (d : extDirection) (c : Char)
    (u : Vertex) (h : u.kmer ≠ []) :
    (Vertex.shift s d c u).kmer.length = u.kmer.length := by
  have hpos : 0 < u.kmer.length := List.length_pos.mpr h
  cases d <;>
    simp [shift_sense, shift_antisense, List.length_tail,
      List.length_dropLast] <;> omega

/-- The masked comparison holds exactly when the lengths agree and the
sequences agree at every significant (unmasked) position. -/
theorem maskedEq_iff (mask : List Bool) (xs ys : List Char) :
    maskedEq mask xs ys = true ↔
      (xs.length = ys.length ∧
        ∀ i, i < xs.length → mask.getD i true = true →
          xs.getD i 'A' = ys.getD i 'A') := by
  by_cases hm : mask = []
  · subst hm
    simp only [maskedEq, List.isEmpty_nil, if_true, beq_iff_eq]
    constructor
    · rintro rfl
      exact ⟨rfl, fun i _ _ => rfl⟩
    · rintro ⟨hlen, hpt⟩
      apply List.ext_getElem hlen
      intro i h1 h2
      have := hpt i h1 rfl
      rwa [List.getD_eq_getElem xs 'A' h1, List.getD_eq_getElem ys 'A' h2]
        at this
  · have hm' : mask.isEmpty = false := by
      simp [List.isEmpty_iff, hm]
    rw [maskedEq, hm']
    simp only [Bool.false_eq_true, if_false, Bool.and_eq_true, beq_iff_eq,
      List.all_eq_true, List.mem_range, Bool.or_eq_true]
    constructor
    · rintro ⟨h1, h2⟩
      refine ⟨h1, fun i hi hsig => ?_⟩
      rcases h2 i hi with h | h
      · rw [hsig] at h
        simp at h
      · exact h
    · rintro ⟨h1, h2⟩
      refine ⟨h1, fun i hi => ?_⟩
      by_cases hsig : mask.getD i true = true
      · exact Or.inr (h2 i hi hsig)
      · left
        simp [Bool.not_eq_true] at hsig
        simp [hsig]

/-! Claim theorems. -/

/-- C1: in the unit-test scenario (k = 5, numHashes = 2, no mask, exact
oracle over {CGACT, TGACT, GACTC, ACTCT, ACTCG}), GACTC has out-degree 2
with out-neighbors {ACTCG, ACTCT}, in-degree 2 with in-neighbor sources
{CGACT, TGACT}, and CGACT has out-degree 1 with sole out-neighbor GACTC. -/
theorem spec_c1 :
    out_degree scen scenGraph (mkVertex scen kGACTC) = 2 ∧
    adjacent_vertices scen scenGraph (mkVertex scen kGACTC) =
      [mkVertex scen kACTCG, mkVertex scen kACTCT] ∧
    in_degree scen scenGraph (mkVertex scen kGACTC) = 2 ∧
    (in_edges scen scenGraph (mkVertex scen kGACTC)).map (fun e => e.1) =
      [mkVertex scen kCGACT, mkVertex scen kTGACT] ∧
    out_degree scen scenGraph (mkVertex scen kCGACT) = 1 ∧
    adjacent_vertices scen scenGraph (mkVertex scen kCGACT) =
      [mkVertex scen kGACTC] := by
  decide

/-- C2: every neighbor enumeration clones the origin vertex, shifts the
clone once in the chosen direction, substitutes each of A, C, G, T (in that
order) at the newly exposed position and keeps the candidates passing the
oracle; the out-edge enumeration yields the pairs `(u, w)` with `u` as
source and the in-edge enumeration yields the pairs `(w, u)` with `u` as
target. -/
theorem spec_c2 (s : Session) (g : Graph) (u : Vertex) :
    out_edges s g u =
      ((BASE_CHARS.map (fun c =>
        Vertex.setLastBase s SENSE c (Vertex.shift s SENSE 'A' u.clone))).filter
        (fun w => vertex_exists w g)).map (fun w => (u, w)) ∧
    in_edges s g u =
      ((BASE_CHARS.map (fun c =>
        Vertex.setLastBase s ANTISENSE c
          (Vertex.shift s ANTISENSE 'A' u.clone))).filter
        (fun w => vertex_exists w g)).map (fun w => (w, u)) ∧
    (∀ e ∈ out_edges s g u, e.1 = u) ∧
    (∀ e ∈ in_edges s g u, e.2 = u) := by
  refine ⟨out_edges_eq s g u, in_edges_eq s g u, ?_, ?_⟩
  · intro e he
    rw [out_edges_eq s g u] at he
    rcases List.mem_map.mp he with ⟨w, _, rfl⟩
    rfl
  · intro e he
    rw [in_edges_eq s g u] at he
    rcases List.mem_map.mp he with ⟨w, _, rfl⟩
    rfl

/-- Witness for C2 at the test scenario: the edge from GACTC to ACTCG is
yielded by the out-edge enumeration and carries GACTC as its source. -/
theorem spec_c2_w :
    (mkVertex scen kGACTC, mkVertex scen kACTCG) ∈
      out_edges scen scenGraph (mkVertex scen kGACTC) ∧
    (mkVertex scen kGACTC, mkVertex scen kACTCG).1 = mkVertex scen kGACTC :=
  ⟨by decide,
   (spec_c2 scen scenGraph (mkVertex scen kGACTC)).2.2.1 _ (by decide)⟩

/-- C3: two vertices of the same session compare equal exactly when their
hash states are equal and their k-mers agree at every unmasked position;
when the hash states differ, the comparison answers `false` whatever the
two sequences are (the sequences are not consulted). -/
theorem spec_c3 (s : Session) (u v : Vertex) :
    (vertexEq s u v = true ↔
      (u.rollingHash = v.rollingHash ∧
        u.kmer.length = v.kmer.length ∧
        ∀ i, i < u.kmer.length → s.mask.getD i true = true →
          u.kmer.getD i 'A' = v.kmer.getD i 'A')) ∧
    (u.rollingHash ≠ v.rollingHash →
      ∀ k1 k2 : List Char,
        vertexEq s ⟨k1, u.rollingHash⟩ ⟨k2, v.rollingHash⟩ = false) := by
  constructor
  · by_cases h : u.rollingHash = v.rollingHash
    · rw [vertexEq, if_neg (by simp [h])]
      rw [maskedEq_iff]
      constructor
      · rintro ⟨h1, h2⟩
        exact ⟨h, h1, h2⟩
      · rintro ⟨_, h1, h2⟩
        exact ⟨h1, h2⟩
    · rw [vertexEq, if_pos h]
      constructor
      · intro hfalse
        exact absurd hfalse (by simp)
      · rintro ⟨heq, _⟩
        exact absurd heq h
  · intro h k1 k2
    rw [vertexEq, if_pos h]

/-- Witness for C3 at concrete vertices of the test scenario. -/
theorem spec_c3_w :
    vertexEq scen (mkVertex scen kGACTC) (mkVertex scen kGACTC) = true ∧
    vertexEq scen ⟨kACTCT, (mkVertex scen kGACTC).rollingHash⟩
      ⟨kACTCT, (mkVertex scen kACTCT).rollingHash⟩ = false := by
  constructor
  · exact (spec_c3 scen (mkVertex scen kGACTC) (mkVertex scen kGACTC)).1.mpr
      ⟨rfl, rfl, fun i _ _ => rfl⟩
  · exact (spec_c3 scen (mkVertex scen kGACTC) (mkVertex scen kACTCT)).2
      (by decide) kACTCT kACTCT

/-- C4: the out-degree of a vertex equals the number of alphabet symbols
whose SENSE-shift-then-substitute candidate passes the oracle, and equals
the number of vertices produced by the adjacency enumeration. -/
theorem spec_c4 (s : Session) (g : Graph) (u : Vertex) :
    out_degree s g u =
      (BASE_CHARS.filter (fun c =>
        vertex_exists
          (Vertex.setLastBase s SENSE c (Vertex.shift s SENSE 'A' u.clone))
          g)).length ∧
    out_degree s g u = (adjacent_vertices s g u).length := by
  refine ⟨?_, rfl⟩
  rw [out_degree, adjacent_vertices_eq, length_filter_of_map]

/-- C9: iterator equality for the adjacency, out-edge and in-edge
iterators compares only the alphabet cursors, independently of origin
vertex, working vertex and graph; any iterator with cursor `NUM_BASES = 4`
equals every end iterator. -/
theorem spec_c9 :
    (∀ a b : AdjacencyIterator, adjIterEq a b = true ↔ a.i = b.i) ∧
    (∀ a b : OutEdgeIterator, outIterEq a b = true ↔ a.i = b.i) ∧
    (∀ a b : InEdgeIterator, inIterEq a b = true ↔ a.i = b.i) ∧
    (∀ (a : AdjacencyIterator) (g' : Graph), a.i = 4 →
      adjIterEq a (adjIterEnd g') = true) ∧
    (∀ (a : OutEdgeIterator) (g' : Graph), a.i = 4 →
      outIterEq a (outIterEnd g') = true) ∧
    (∀ (a : InEdgeIterator) (g' : Graph), a.i = 4 →
      inIterEq a (inIterEnd g') = true) := by
  refine ⟨fun a b => ?_, fun a b => ?_, fun a b => ?_,
    fun a g' h => ?_, fun a g' h => ?_, fun a g' h => ?_⟩ <;>
    simp [adjIterEq, outIterEq, inIterEq, adjIterEnd, outIterEnd,
      inIterEnd, *]

/-- Witness for C9: concrete iterators over distinct graphs and origin
vertices compare equal exactly on their cursors. -/
theorem spec_c9_w :
    adjIterEq ⟨scenGraph, mkVertex scen kGACTC, mkVertex scen kACTCT, 4⟩
      (adjIterEnd (oracleGraph scen [])) = true ∧
    outIterEq ⟨scenGraph, mkVertex scen kGACTC, mkVertex scen kACTCT, 4⟩
      (outIterEnd (oracleGraph scen [])) = true ∧
    inIterEq ⟨scenGraph, mkVertex scen kGACTC, mkVertex scen kACTCT, 4⟩
      (inIterEnd (oracleGraph scen [])) = true ∧
    adjIterEq ⟨scenGraph, mkVertex scen kGACTC, mkVertex scen kACTCT, 2⟩
      ⟨oracleGraph scen [], mkVertex scen kCGACT, mkVertex scen kTGACT, 2⟩
      = true :=
  ⟨spec_c9.2.2.2.1 _ (oracleGraph scen []) rfl,
   spec_c9.2.2.2.2.1 _ (oracleGraph scen []) rfl,
   spec_c9.2.2.2.2.2 _ (oracleGraph scen []) rfl,
   (spec_c9.1 _ _).mpr rfl⟩

/-- C10: the vertices yielded by the adjacency enumeration are exactly, in
order, the targets of the edges yielded by the out-edge enumeration. -/
theorem spec_c10 (s : Session) (g : Graph) (u : Vertex) :
    (out_edges s g u).map (fun e => e.2) = adjacent_vertices s g u := by
  rw [out_edges_eq, adjacent_vertices_eq, List.map_map]
  simp [Function.comp]

/-- Every vertex yielded by the adjacency enumeration keeps the origin's
k-mer length (the shift and the substitution both preserve length on a
nonempty window). -/
theorem mem_adjacent_kmer_length (s : Session) (g : Graph) (u : Vertex)
    (hne : u.kmer ≠ []) :
    ∀ w ∈ adjacent_vertices s g u, w.kmer.length = u.kmer.length := by
  intro w hw
  rw [adjacent_vertices_eq] at hw
  rcases List.mem_filter.mp hw with ⟨hw', _⟩
  rcases List.mem_map.mp hw' with ⟨c, _, rfl⟩
  rw [setLastBase_kmer_length, shift_kmer_length s SENSE 'A' u.clone hne]
  rfl

/-- Every out-edge target keeps the origin's k-mer length. -/
theorem mem_out_target_kmer_length (s : Session) (g : Graph) (u : Vertex)
    (hne : u.kmer ≠ []) :
    ∀ e ∈ out_edges s g u, e.2.kmer.length = u.kmer.length := by
  intro e he
  rw [out_edges_eq] at he
  rcases List.mem_map.mp he with ⟨w, hw, rfl⟩
  rcases List.mem_filter.mp hw with ⟨hw', _⟩
  rcases List.mem_map.mp hw' with ⟨c, _, rfl⟩
  rw [setLastBase_kmer_length, shift_kmer_length s SENSE 'A' u.clone hne]
  rfl

/-- Every in-edge source keeps the origin's k-mer length. -/
theorem mem_in_source_kmer_length (s : Session) (g : Graph) (u : Vertex)
    (hne : u.kmer ≠ []) :
    ∀ e ∈ in_edges s g u, e.1.kmer.length = u.kmer.length := by
  intro e he
  rw [in_edges_eq] at he
  rcases List.mem_map.mp he with ⟨w, hw, rfl⟩
  rcases List.mem_filter.mp hw with ⟨hw', _⟩
  rcases List.mem_map.mp hw' with ⟨c, _, rfl⟩
  rw [setLastBase_kmer_length, shift_kmer_length s ANTISENSE 'A' u.clone hne]
  rfl

/-- C6: the null vertex pairs the empty k-mer with the empty hash state;
with at least one hash value per signature an oracle answering exactly on
the inserted k-mers never reports it present; and no adjacency, out-edge
or in-edge enumeration from a vertex with a nonempty k-mer ever yields
it. -/
theorem spec_c6 :
    null_vertex.kmer = [] ∧ null_vertex.rollingHash.hashes = [] ∧
    (∀ (s : Session) (ks : List (List Char)), 1 ≤ s.numHashes →
      vertex_exists null_vertex (oracleGraph s ks) = false) ∧
    (∀ (s : Session) (g : Graph) (u : Vertex), u.kmer ≠ [] →
      null_vertex ∉ adjacent_vertices s g u ∧
      (∀ e ∈ out_edges s g u, e.2 ≠ null_vertex) ∧
      (∀ e ∈ in_edges s g u, e.1 ≠ null_vertex)) := by
  refine ⟨rfl, rfl, ?_, ?_⟩
  · intro s ks h
    simp only [vertex_exists, oracleGraph, null_vertex]
    rw [List.any_eq_false]
    intro km _ hc
    rw [beq_iff_eq] at hc
    simp only [RollingHash.ofKmer, RollingHash.mk.injEq] at hc
    rw [List.map_eq_nil_iff, List.range_eq_nil] at hc
    omega
  · intro s g u hne
    have hlen : 0 < u.kmer.length := List.length_pos.mpr hne
    refine ⟨?_, ?_, ?_⟩
    · intro hmem
      have := mem_adjacent_kmer_length s g u hne null_vertex hmem
      simp only [null_vertex] at this
      simp at this
      omega
    · intro e he heq
      have := mem_out_target_kmer_length s g u hne e he
      rw [heq] at this
      simp only [null_vertex] at this
      simp at this
      omega
    · intro e he heq
      have := mem_in_source_kmer_length s g u hne e he
      rw [heq] at this
      simp only [null_vertex] at this
      simp at this
      omega

/-- Witness for C6 at the test scenario. -/
theorem spec_c6_w :
    vertex_exists null_vertex scenGraph = false ∧
    null_vertex ∉ adjacent_vertices scen scenGraph (mkVertex scen kGACTC) :=
  ⟨spec_c6.2.2.1 scen insertedKmers (by decide),
   (spec_c6.2.2.2 scen scenGraph (mkVertex scen kGACTC) (by decide)).1⟩

/-- C7 counterexample: for the vertex GACTC of the test scenario, the
reverse-complement accessor returns the reverse-complemented k-mer GAGTC
paired with GACTC's own hash state, which differs from the hash state
computed from scratch for GAGTC — the hash is reused, not freshly
computed. -/
theorem spec_c7_cex :
    (getVertexComplement (mkVertex scen kGACTC)).kmer =
      reverseComplement (mkVertex scen kGACTC).kmer ∧
    (getVertexComplement (mkVertex scen kGACTC)).rollingHash ≠
      RollingHash.ofKmer scen
        (reverseComplement (mkVertex scen kGACTC).kmer) := by
  decide

/-- Lists map to themselves under a function that fixes each member. -/
theorem map_id_of_mem {α : Type} (l : List α) (f : α → α)
    (h : ∀ a ∈ l, f a = a) : l.map f = l := by
  induction l with
  | nil => rfl
  | cons a t ih =>
    rw [List.map_cons, h a (by simp), ih (fun b hb => h b (by simp [hb]))]

/-- Complementation swaps A with T and C with G, so it is an involution on
alphabet symbols. -/
theorem complementBase_involution (c : Char) (h : c ∈ BASE_CHARS) :
    complementBase (complementBase c) = c := by
  simp only [BASE_CHARS, List.mem_cons, List.not_mem_nil, or_false] at h
  rcases h with rfl | rfl | rfl | rfl <;> rfl

/-- C7 amended: the reverse-complement accessor returns a vertex whose
k-mer is the reverse complement of the origin's k-mer (an involution on
alphabet k-mers) and whose hash state is the origin's hash state reused
unchanged. -/
theorem spec_c7 (u : Vertex) :
    (getVertexComplement u).kmer = reverseComplement u.kmer ∧
    (getVertexComplement u).rollingHash = u.rollingHash ∧
    ((∀ c ∈ u.kmer, c ∈ BASE_CHARS) →
      (getVertexComplement (getVertexComplement u)).kmer = u.kmer) := by
  refine ⟨rfl, rfl, fun h => ?_⟩
  show reverseComplement (reverseComplement u.kmer) = u.kmer
  unfold reverseComplement
  rw [List.map_reverse, List.reverse_reverse, List.map_map]
  exact map_id_of_mem u.kmer _
    (fun a ha => complementBase_involution a (h a ha))

/-- Witness for C7 at the vertex GACTC. -/
theorem spec_c7_w :
    (getVertexComplement (mkVertex scen kGACTC)).kmer =
      reverseComplement (mkVertex scen kGACTC).kmer ∧
    (getVertexComplement (getVertexComplement (mkVertex scen kGACTC))).kmer =
      (mkVertex scen kGACTC).kmer :=
  ⟨(spec_c7 (mkVertex scen kGACTC)).1,
   (spec_c7 (mkVertex scen kGACTC)).2.2 (by decide)⟩

/-- Each single mutation re-establishes the k-mer/hash consistency
invariant: the source pairs every k-mer mutation with the matching
incremental hash update. -/
theorem applyOp_consistent (s : Session) (u : Vertex) (op : MutOp) :
    consistent s (applyOp s u op) := by
  cases op with
  | shiftOp dir c => cases dir <;> rfl
  | setLastOp dir b => cases dir <;> rfl

/-- C8: after any sequence of shift and set-last-base mutations, a
consistent vertex stays consistent — its incremental hash state equals the
hash of its current k-mer computed from scratch. -/
theorem spec_c8 (s : Session) (ops : List MutOp) (u : Vertex)
    (h : consistent s u) : consistent s (applyOps s ops u) := by
  induction ops generalizing u with
  | nil => exact h
  | cons op rest ih => exact ih (applyOp s u op) (applyOp_consistent s u op)

/-- Witness for C8: a concrete mutation sequence on the vertex GACTC. -/
theorem spec_c8_w :
    consistent scen (applyOps scen
      [MutOp.shiftOp SENSE 'C', MutOp.setLastOp ANTISENSE 'G',
       MutOp.shiftOp ANTISENSE 'T', MutOp.setLastOp SENSE 'A']
      (mkVertex scen kGACTC)) :=
  spec_c8 scen _ (mkVertex scen kGACTC) rfl

/-- C5 counterexample: in the test scenario the vertex ACGAC (not itself in
the oracle) has CGACT as a SENSE out-neighbor, yet ACGAC is not yielded by
the ANTISENSE in-neighbor enumeration of CGACT, because the in-enumeration
additionally requires the predecessor candidate itself to pass the
membership oracle. -/
theorem spec_c5_cex :
    mkVertex scen kCGACT ∈
      adjacent_vertices scen scenGraph
        (mkVertex scen ['A', 'C', 'G', 'A', 'C']) ∧
    (mkVertex scen ['A', 'C', 'G', 'A', 'C'], mkVertex scen kCGACT) ∉
      in_edges scen scenGraph (mkVertex scen kCGACT) := by
  decide

/-- Setting the element right after a list overwrites the appended
element. -/
theorem set_append_singleton {α : Type} (xs : List α) (a b : α) :
    (xs ++ [a]).set xs.length b = xs ++ [b] := by
  induction xs with
  | nil => rfl
  | cons x t ih =>
    show x :: ((t ++ [a]).set t.length b) = x :: (t ++ [b])
    rw [ih]

/-- Closed form of the SENSE candidate for symbol `c`: the origin's k-mer
with its first symbol dropped and `c` appended, freshly hashed. -/
theorem candS_eq (s : Session) (u : Vertex) (c : Char)
    (hlen : u.kmer.length = s.k) :
    Vertex.setLastBase s SENSE c (Vertex.shift s SENSE 'A' u.clone) =
      ⟨u.kmer.tail ++ [c], RollingHash.ofKmer s (u.kmer.tail ++ [c])⟩ := by
  have htl : u.kmer.tail.length = s.k - 1 := by
    rw [List.length_tail, hlen]
  have hset : (u.kmer.tail ++ ['A']).set (s.k - 1) c = u.kmer.tail ++ [c] := by
    rw [← htl, set_append_singleton]
  simp only [Vertex.clone, shift_sense, setLastBase_sense]
  rw [hset]

/-- Closed form of the ANTISENSE candidate for symbol `c`: the origin's
k-mer with its last symbol dropped and `c` prepended, freshly hashed. -/
theorem candA_eq (s : Session) (v : Vertex) (c : Char) :
    Vertex.setLastBase s ANTISENSE c (Vertex.shift s ANTISENSE 'A' v.clone) =
      ⟨c :: v.kmer.dropLast, RollingHash.ofKmer s (c :: v.kmer.dropLast)⟩ :=
  rfl

/-- C5 amended: for well-formed vertices `u` and `v` that both pass the
membership oracle, `v` is yielded by the SENSE out-neighbor enumeration of
`u` exactly when `u` is yielded (as edge source) by the ANTISENSE
in-neighbor enumeration of `v`. -/
theorem spec_c5 (s : Session) (g : Graph) (u v : Vertex)
    (hk : 0 < s.k) (hu : wellFormed s u) (hv : wellFormed s v)
    (hue : vertex_exists u g = true) (hve : vertex_exists v g = true) :
    v ∈ adjacent_vertices s g u ↔ (u, v) ∈ in_edges s g v := by
  obtain ⟨hulen, hualpha, huhash⟩ := hu
  obtain ⟨hvlen, hvalpha, hvhash⟩ := hv
  have hune : u.kmer ≠ [] := by
    intro h
    rw [h] at hulen
    simp at hulen
    omega
  have hvne : v.kmer ≠ [] := by
    intro h
    rw [h] at hvlen
    simp at hvlen
    omega
  constructor
  · intro hmem
    rw [adjacent_vertices_eq] at hmem
    simp only [List.mem_filter, List.mem_map] at hmem
    obtain ⟨⟨c, _, hcv⟩, hex⟩ := hmem
    rw [candS_eq s u c hulen] at hcv
    have hvk : v.kmer = u.kmer.tail ++ [c] := by
      rw [← hcv]
    rw [in_edges_eq]
    simp only [List.mem_map]
    refine ⟨u, ?_, rfl⟩
    simp only [List.mem_filter, List.mem_map]
    refine ⟨⟨u.kmer.head hune, hualpha _ (List.head_mem hune), ?_⟩, hue⟩
    rw [candA_eq]
    have hdl : v.kmer.dropLast = u.kmer.tail := by
      rw [hvk, List.dropLast_concat]
    rw [hdl, List.head_cons_tail u.kmer hune, ← huhash]
  · intro hmem
    rw [in_edges_eq] at hmem
    simp only [List.mem_map] at hmem
    obtain ⟨w, hwmem, hw⟩ := hmem
    have hwu : w = u := by
      have := congrArg Prod.fst hw
      simpa using this
    rw [hwu] at hwmem
    simp only [List.mem_filter, List.mem_map] at hwmem
    obtain ⟨⟨c, _, hcw⟩, _⟩ := hwmem
    rw [candA_eq] at hcw
    have huk : u.kmer = c :: v.kmer.dropLast := by
      rw [← hcw]
    rw [adjacent_vertices_eq]
    simp only [List.mem_filter, List.mem_map]
    refine ⟨⟨v.kmer.getLast hvne, hvalpha _ (List.getLast_mem hvne), ?_⟩, hve⟩
    rw [candS_eq s u _ hulen]
    have htl : u.kmer.tail = v.kmer.dropLast := by
      rw [huk, List.tail_cons]
    rw [htl, List.dropLast_append_getLast hvne, ← hvhash]

/-- Witness for C5 at the test scenario: GACTC and its out-neighbor
ACTCT. -/
theorem spec_c5_w :
    mkVertex scen kACTCT ∈
      adjacent_vertices scen scenGraph (mkVertex scen kGACTC) ↔
    (mkVertex scen kGACTC, mkVertex scen kACTCT) ∈
      in_edges scen scenGraph (mkVertex scen kACTCT) :=
  spec_c5 scen scenGraph (mkVertex scen kGACTC) (mkVertex scen kACTCT)
    (by decide) ⟨by decide, by decide, rfl⟩ ⟨by decide, by decide, rfl⟩
    (by decide) (by decide)

end RollingBloomDBG
